import Mathlib

/-!
Shallow embedding of `src/extensions/TerminalTitle/src/TemplateString.ts`
(the extraterm TerminalTitle template-string engine).

Strings are modelled as `List Char`; the mutable token cursor of the source
is modelled by passing the remaining token list explicitly; the lexer's
`throw "Unable to parse!"` is modelled by an `Option` result (`none` =
fatal lexer failure).
-/

/-- `enum TokenType` of the source (EOF is the sentinel returned by
`_peekTokenType` when no token is left; the lexer never materializes it). -/
inductive TokenType where
  | STRING
  | ESCAPE_DOLLAR
  | OPEN_BRACKET
  | SYMBOL
  | COLON
  | CLOSE_BRACKET
  | EOF
deriving DecidableEq, Repr

/-- `interface Token { type, text }`. -/
structure Token where
  type : TokenType
  text : List Char
deriving DecidableEq, Repr

/-- `enum LexerState`. -/
inductive LexerState where
  | NORMAL
  | FIELD
deriving DecidableEq, Repr

/-- A lexer rule, `interface LexMatcher { match, type, newState }`.  The
regular expression of the `match` field is embedded as the function
`matchFn : input ↦ some (matched prefix, remaining input)` or `none`. -/
structure LexMatcher where
  matchFn : List Char → Option (List Char × List Char)
  type : TokenType
  newState : LexerState

/-- The character class `[^$\\]` of the NORMAL-state STRING rule. -/
def isNormalChar (c : Char) : Bool := !(c == '$' || c == '\\')

/-- The character class `[^:}]` of the FIELD-state SYMBOL rule. -/
def isSymbolChar (c : Char) : Bool := !(c == ':' || c == '}')

/-- An anchored literal regex such as `^[$][{]`: matches exactly when the
input starts with `lit`, consuming it. -/
def matchLit (lit : List Char) (input : List Char) : Option (List Char × List Char) :=
  if lit.isPrefixOf input then some (lit, input.drop lit.length) else none

/-- An anchored maximal-run regex such as `^[^$\\]+`: matches the longest
non-empty prefix of characters satisfying `p`. -/
def matchRun (p : Char → Bool) (input : List Char) : Option (List Char × List Char) :=
  let run := input.takeWhile p
  if run.isEmpty then none else some (run, input.dropWhile p)

/-- `const NormalParseRules: LexMatcher[]`, in source order. -/
def NormalParseRules : List LexMatcher := [
  { matchFn := matchLit ['$', '{'], type := TokenType.OPEN_BRACKET, newState := LexerState.FIELD },
  { matchFn := matchLit ['\\', '$'], type := TokenType.ESCAPE_DOLLAR, newState := LexerState.NORMAL },
  { matchFn := matchRun isNormalChar, type := TokenType.STRING, newState := LexerState.NORMAL },
  { matchFn := matchLit ['$'], type := TokenType.STRING, newState := LexerState.NORMAL },
  { matchFn := matchLit ['\\'], type := TokenType.STRING, newState := LexerState.NORMAL }]

/-- `const FieldParseRules: LexMatcher[]`, in source order. -/
def FieldParseRules : List LexMatcher := [
  { matchFn := matchRun isSymbolChar, type := TokenType.SYMBOL, newState := LexerState.FIELD },
  { matchFn := matchLit [':'], type := TokenType.COLON, newState := LexerState.FIELD },
  { matchFn := matchLit ['}'], type := TokenType.CLOSE_BRACKET, newState := LexerState.NORMAL }]

/-- `const LexerStateRules` dispatch table. -/
def LexerStateRules : LexerState → List LexMatcher
  | LexerState.NORMAL => NormalParseRules
  | LexerState.FIELD => FieldParseRules

/-- One pass over a rule list: try each rule in order, first match wins
(the `for (const rule of LexerStateRules[state])` loop body of `lex`). -/
def runRules : List LexMatcher → List Char → Option (Token × List Char × LexerState)
  | [], _ => none
  | r :: rs, input =>
    match r.matchFn input with
    | some (txt, rest) => some ({ type := r.type, text := txt }, rest, r.newState)
    | none => runRules rs input

/-- A matcher is sound when a successful match consumes a non-empty prefix
of the input. -/
def MatcherSound (f : List Char → Option (List Char × List Char)) : Prop :=
  ∀ input txt rest, f input = some (txt, rest) → txt ≠ [] ∧ input = txt ++ rest

theorem matchLit_sound (lit : List Char) (hlit : lit ≠ []) : MatcherSound (matchLit lit) := by
  intro input txt rest h
  unfold matchLit at h
  split at h
  · rename_i hp
    obtain ⟨rfl, rfl⟩ : lit = txt ∧ input.drop lit.length = rest := by
      cases h; exact ⟨rfl, rfl⟩
    rw [List.isPrefixOf_iff_prefix] at hp
    obtain ⟨t, rfl⟩ := hp
    refine ⟨hlit, ?_⟩
    rw [List.drop_left]
  · cases h

theorem matchRun_sound (p : Char → Bool) : MatcherSound (matchRun p) := by
  intro input txt rest h
  unfold matchRun at h
  simp only at h
  split at h
  · cases h
  · rename_i hne
    obtain ⟨rfl, rfl⟩ : input.takeWhile p = txt ∧ input.dropWhile p = rest := by
      cases h; exact ⟨rfl, rfl⟩
    refine ⟨by simpa [List.isEmpty_iff] using hne, ?_⟩
    rw [List.takeWhile_append_dropWhile]

/-- Every rule of both rule tables has a sound matcher. -/
theorem lexerStateRules_sound (state : LexerState) :
    ∀ r ∈ LexerStateRules state, MatcherSound r.matchFn := by
  intro r hr
  cases state <;> simp only [LexerStateRules, NormalParseRules, FieldParseRules,
    List.mem_cons, List.mem_singleton, List.not_mem_nil, or_false] at hr
  · rcases hr with rfl | rfl | rfl | rfl | rfl
    · exact matchLit_sound _ (by decide)
    · exact matchLit_sound _ (by decide)
    · exact matchRun_sound _
    · exact matchLit_sound _ (by decide)
    · exact matchLit_sound _ (by decide)
  · rcases hr with rfl | rfl | rfl
    · exact matchRun_sound _
    · exact matchLit_sound _ (by decide)
    · exact matchLit_sound _ (by decide)

theorem runRules_sound {rules : List LexMatcher}
    (hs : ∀ r ∈ rules, MatcherSound r.matchFn) {input : List Char}
    {tok : Token} {rest : List Char} {st : LexerState}
    (h : runRules rules input = some (tok, rest, st)) :
    tok.text ≠ [] ∧ input = tok.text ++ rest := by
  induction rules with
  | nil => cases h
  | cons r rs ih =>
    unfold runRules at h
    cases hm : r.matchFn input with
    | none =>
      rw [hm] at h
      exact ih (fun m hmem => hs m (List.mem_cons_of_mem _ hmem)) h
    | some pr =>
      obtain ⟨txt, rest2⟩ := pr
      rw [hm] at h
      simp only [Option.some.injEq, Prod.mk.injEq] at h
      obtain ⟨h1, h2, h3⟩ := h
      subst h2
      have := (hs r (List.mem_cons_self _ _)) input txt rest2 hm
      simpa [← h1] using this

/-- Each successful rule application strictly shortens the remaining input. -/
theorem runRules_progress (state : LexerState) {input rest : List Char}
    {tok : Token} {st : LexerState}
    (h : runRules (LexerStateRules state) input = some (tok, rest, st)) :
    rest.length < input.length := by
  obtain ⟨hne, heq⟩ := runRules_sound (lexerStateRules_sound state) h
  subst heq
  have : 0 < tok.text.length := List.length_pos.mpr hne
  simp [List.length_append]
  omega

/-- The `while (currentInput.length !== 0)` loop of `function lex`:
repeatedly match the current state's rules against the remaining input;
`none` models the `throw "Unable to parse!"` branch. -/
def lexLoop (state : LexerState) (input : List Char) : Option (List Token) :=
  if input.isEmpty then some []
  else
    match hm : runRules (LexerStateRules state) input with
    | none => none
    | some (tok, rest, newState) => (lexLoop newState rest).map fun toks => tok :: toks
termination_by input.length
decreasing_by exact runRules_progress state hm

/-- `function lex(input: string): Token[]`, starting in NORMAL state. -/
def lex (input : List Char) : Option (List Token) :=
  lexLoop LexerState.NORMAL input

/-- The kinds of the `Segment` tagged union (`"text" | "field" | "error"`). -/
inductive SegmentType where
  | text
  | field
  | error
deriving DecidableEq, Repr

/-- The `Segment` union (`TextSegment | FieldSegment | ErrorSegment`),
flattened into one record with a `type` tag exactly as the source's
interfaces do; each variant uses only its own payload fields and the shared
`startColumn`/`endColumn` columns. -/
structure Segment where
  type : SegmentType
  text : List Char := []
  «namespace» : List Char := []
  key : List Char := []
  error : List Char := []
  startColumn : Nat
  endColumn : Nat
deriving DecidableEq, Repr

/-- `_peekTokenType()`: the type of the token at the cursor, or the EOF
sentinel when no token is left. -/
def _peekTokenType (toks : List Token) : TokenType :=
  match toks with
  | [] => TokenType.EOF
  | t :: _ => t.type

/-- The `while` loop body of `_processTextStateTokens`: consume the maximal
run of STRING/ESCAPE_DOLLAR tokens, returning the accumulated decoded text,
the accumulated character width (`endColumn` before the column fix-up:
STRING contributes its text length, ESCAPE_DOLLAR contributes one `$` of
text but width 2), and the remaining tokens. -/
def textRun : List Token → List Char × Nat × List Token
  | ⟨TokenType.STRING, s⟩ :: rest =>
    let tr := textRun rest
    (s ++ tr.1, s.length + tr.2.1, tr.2.2)
  | ⟨TokenType.ESCAPE_DOLLAR, _⟩ :: rest =>
    let tr := textRun rest
    ('$' :: tr.1, 2 + tr.2.1, tr.2.2)
  | toks => ([], 0, toks)

/-- `_processTextStateTokens()`: emit one Text segment when the consumed
text is non-empty (`textSegment.text.length !== 0`), else no segment. -/
def _processTextStateTokens (toks : List Token) : List Segment × List Token :=
  let tr := textRun toks
  (if tr.1.isEmpty then []
   else [{ type := SegmentType.text, text := tr.1, startColumn := 0, endColumn := tr.2.1 }],
   tr.2.2)

/-- `_checkFieldTokens()`: 5-token lookahead against
`[OPEN_BRACKET, SYMBOL, COLON, SYMBOL, CLOSE_BRACKET]` with cursor restore
(list passing makes the restore implicit). -/
def _checkFieldTokens (toks : List Token) : Bool :=
  _peekTokenType toks == TokenType.OPEN_BRACKET &&
  _peekTokenType (toks.drop 1) == TokenType.SYMBOL &&
  _peekTokenType (toks.drop 2) == TokenType.COLON &&
  _peekTokenType (toks.drop 3) == TokenType.SYMBOL &&
  _peekTokenType (toks.drop 4) == TokenType.CLOSE_BRACKET

/-- The `while` loop of `_processBadField`: take tokens while the next
token type is none of STRING, ESCAPE_DOLLAR, EOF (EOF = empty list),
accumulating their raw text. -/
def badRun : List Token → List Char × List Token
  | [] => ([], [])
  | t :: rest =>
    if t.type == TokenType.STRING || t.type == TokenType.ESCAPE_DOLLAR
        || t.type == TokenType.EOF then
      ([], t :: rest)
    else
      let br := badRun rest
      (t.text ++ br.1, br.2)

/-- `_processBadField()`: wrap the consumed raw text in an Error segment
(`error` message left empty, width = raw text length). -/
def _processBadField (toks : List Token) : Segment × List Token :=
  let br := badRun toks
  ({ type := SegmentType.error, text := br.1, error := [],
     startColumn := 0, endColumn := br.1.length }, br.2)

/-- `_processFieldStateTokens()`: nothing at EOF; a complete
`${symbol:symbol}` (checked by the 5-token lookahead) becomes a Field
segment via `_processCompleteField` (width `2 + |ns| + 1 + |key| + 1`);
anything else becomes an Error segment via `_processBadField`.  The inner
match is the token consumption of `_processCompleteField`; its fallback arm
is unreachable because `_checkFieldTokens` only succeeds on at least five
tokens (`checkFieldTokens_shape` below). -/
def _processFieldStateTokens (toks : List Token) : List Segment × List Token :=
  if _peekTokenType toks == TokenType.EOF then ([], toks)
  else if _checkFieldTokens toks then
    match toks with
    | _ :: t1 :: _ :: t3 :: _ :: rest =>
      ([{ type := SegmentType.field, «namespace» := t1.text, key := t3.text,
          startColumn := 0,
          endColumn := 2 + t1.text.length + 1 + t3.text.length + 1 }], rest)
    | _ => ([], toks)
  else
    let pb := _processBadField toks
    ([pb.1], pb.2)

theorem textRun_rest_le (toks : List Token) : (textRun toks).2.2.length ≤ toks.length := by
  induction toks with
  | nil => simp [textRun]
  | cons t rest ih =>
    obtain ⟨ty, tx⟩ := t
    cases ty <;> simp only [textRun] <;> simp <;> omega

/-- A non-text token (or the end of input) stops the text phase without
consuming anything. -/
theorem textRun_eq_of_other (t : Token) (rest : List Token)
    (h1 : t.type ≠ TokenType.STRING) (h2 : t.type ≠ TokenType.ESCAPE_DOLLAR) :
    textRun (t :: rest) = ([], 0, t :: rest) := by
  obtain ⟨ty, tx⟩ := t
  cases ty <;> simp_all [textRun]

theorem badRun_rest_le (toks : List Token) : (badRun toks).2.length ≤ toks.length := by
  induction toks with
  | nil => simp [badRun]
  | cons t rest ih =>
    by_cases h : t.type == TokenType.STRING || t.type == TokenType.ESCAPE_DOLLAR
        || t.type == TokenType.EOF
    · simp [badRun, h]
    · simp only [badRun, h]
      simp
      omega

/-- The bad-field phase consumes at least one token when the next token is
not a text/EOF stopper. -/
theorem badRun_rest_lt (t : Token) (rest : List Token)
    (h1 : t.type ≠ TokenType.STRING) (h2 : t.type ≠ TokenType.ESCAPE_DOLLAR)
    (h3 : t.type ≠ TokenType.EOF) :
    (badRun (t :: rest)).2.length < (t :: rest).length := by
  have hcond : (t.type == TokenType.STRING || t.type == TokenType.ESCAPE_DOLLAR
      || t.type == TokenType.EOF) = false := by
    simp [beq_eq_false_iff_ne, h1, h2, h3]
  simp only [badRun, hcond]
  have := badRun_rest_le rest
  simp
  omega

/-- A successful 5-token lookahead means at least five tokens of the
required types are present. -/
theorem checkFieldTokens_shape (toks : List Token) (h : _checkFieldTokens toks = true) :
    ∃ t0 t1 t2 t3 t4 rest, toks = t0 :: t1 :: t2 :: t3 :: t4 :: rest ∧
      t0.type = TokenType.OPEN_BRACKET ∧ t1.type = TokenType.SYMBOL ∧
      t2.type = TokenType.COLON ∧ t3.type = TokenType.SYMBOL ∧
      t4.type = TokenType.CLOSE_BRACKET := by
  match toks with
  | [] => simp [_checkFieldTokens, _peekTokenType] at h
  | [t0] => simp [_checkFieldTokens, _peekTokenType] at h
  | [t0, t1] => simp [_checkFieldTokens, _peekTokenType] at h
  | [t0, t1, t2] => simp [_checkFieldTokens, _peekTokenType] at h
  | [t0, t1, t2, t3] => simp [_checkFieldTokens, _peekTokenType] at h
  | t0 :: t1 :: t2 :: t3 :: t4 :: rest =>
    simp only [_checkFieldTokens, _peekTokenType, List.drop, Bool.and_eq_true, beq_iff_eq] at h
    obtain ⟨⟨⟨⟨ha, hb⟩, hc⟩, hd⟩, he⟩ := h
    exact ⟨t0, t1, t2, t3, t4, rest, rfl, ha, hb, hc, hd, he⟩

theorem fieldState_rest_le (toks : List Token) :
    (_processFieldStateTokens toks).2.length ≤ toks.length := by
  unfold _processFieldStateTokens
  by_cases he : _peekTokenType toks == TokenType.EOF
  · simp [he]
  · simp only [he, if_false]
    by_cases hc : _checkFieldTokens toks
    · obtain ⟨t0, t1, t2, t3, t4, rest, rfl, -⟩ := checkFieldTokens_shape toks hc
      simp [hc]
      omega
    · simp only [hc, if_false]
      have := badRun_rest_le toks
      simpa [_processBadField] using this

/-- The field phase consumes at least one token when the cursor stands on a
non-text token. -/
theorem fieldState_rest_lt (t : Token) (rest : List Token)
    (h1 : t.type ≠ TokenType.STRING) (h2 : t.type ≠ TokenType.ESCAPE_DOLLAR)
    (h3 : t.type ≠ TokenType.EOF) :
    (_processFieldStateTokens (t :: rest)).2.length < (t :: rest).length := by
  by_cases hc : _checkFieldTokens (t :: rest)
  · obtain ⟨t0, t1, t2, t3, t4, rest5, heq, hty0, -⟩ := checkFieldTokens_shape _ hc
    rw [heq] at hc ⊢
    unfold _processFieldStateTokens
    have he : (_peekTokenType (t0 :: t1 :: t2 :: t3 :: t4 :: rest5) == TokenType.EOF) = false := by
      simp only [_peekTokenType, beq_eq_false_iff_ne, hty0]
      decide
    simp [he, hc]
    omega
  · unfold _processFieldStateTokens
    have he : (_peekTokenType (t :: rest) == TokenType.EOF) = false := by
      simp [_peekTokenType, beq_eq_false_iff_ne, h3]
    simp only [he, if_false, Bool.false_eq_true, hc]
    have := badRun_rest_lt t rest h1 h2 h3
    simpa [_processBadField] using this

/-- One iteration of the `_parse` loop (text phase, then field phase)
strictly advances the cursor whenever tokens remain. -/
theorem parse_progress (toks : List Token) (h : _peekTokenType toks ≠ TokenType.EOF) :
    (_processFieldStateTokens (_processTextStateTokens toks).2).2.length < toks.length := by
  match toks with
  | [] => exact absurd rfl h
  | t :: rest =>
    have ht : t.type ≠ TokenType.EOF := by simpa [_peekTokenType] using h
    by_cases hs : t.type = TokenType.STRING ∨ t.type = TokenType.ESCAPE_DOLLAR
    · -- text phase consumes at least the head token
      have hlt : (_processTextStateTokens (t :: rest)).2.length < (t :: rest).length := by
        obtain ⟨ty, tx⟩ := t
        rcases hs with hs | hs <;> subst hs <;>
          · simp only [_processTextStateTokens, textRun]
            have := textRun_rest_le rest
            simp
            omega
      calc (_processFieldStateTokens (_processTextStateTokens (t :: rest)).2).2.length
          ≤ (_processTextStateTokens (t :: rest)).2.length := fieldState_rest_le _
        _ < (t :: rest).length := hlt
    · push_neg at hs
      have htr : (_processTextStateTokens (t :: rest)).2 = t :: rest := by
        simp [_processTextStateTokens, textRun_eq_of_other t rest hs.1 hs.2]
      rw [htr]
      exact fieldState_rest_lt t rest hs.1 hs.2 ht

/-- The `while (this._peekTokenType() !== TokenType.EOF)` loop of
`_parse`: alternate the text phase and the field phase until the token
cursor reaches EOF. -/
def _parseLoop (toks : List Token) : List Segment :=
  if h : _peekTokenType toks == TokenType.EOF then []
  else
    let tr := _processTextStateTokens toks
    let fr := _processFieldStateTokens tr.2
    tr.1 ++ fr.1 ++ _parseLoop fr.2
termination_by toks.length
decreasing_by exact parse_progress toks (by simpa using h)

/-- The column fix-up pass of `_parse`: on entry each segment's
`endColumn` holds its character width; the pass rewrites `startColumn` to
the running offset `i` and `endColumn` to `i + width`. -/
def fixColumns (i : Nat) : List Segment → List Segment
  | [] => []
  | s :: rest =>
    { s with startColumn := i, endColumn := i + s.endColumn } ::
      fixColumns (i + s.endColumn) rest

/-- `_parse(template)`: lex, run the segment loop, fix up columns.
`none` models the propagated fatal lexer failure. -/
def _parse (template : List Char) : Option (List Segment) :=
  (lex template).map fun tokens => fixColumns 0 (_parseLoop tokens)

/-- `interface FieldFormatter`: an external per-namespace resolver.
`getErrorMessage` returns `none` for the source's `null` ("no error"). -/
structure FieldFormatter where
  formatHtml : List Char → List Char
  getErrorMessage : List Char → Option (List Char)

/-- `Map.set` of the formatter map: replace the value of an existing key in
place, else append (JS `Map` insertion-order semantics). -/
def mapSet (m : List (List Char × FieldFormatter)) (k : List Char) (v : FieldFormatter) :
    List (List Char × FieldFormatter) :=
  match m with
  | [] => [(k, v)]
  | (k0, v0) :: rest => if k0 = k then (k0, v) :: rest else (k0, v0) :: mapSet rest k v

/-- `Map.get` of the formatter map. -/
def mapGet (m : List (List Char × FieldFormatter)) (k : List Char) : Option FieldFormatter :=
  match m with
  | [] => none
  | (k0, v0) :: rest => if k0 = k then some v0 else mapGet rest k

/-- Modelled from the spec: the external `he.encode` HTML-escaping
primitive (the `he` npm package), which the spec puts out of scope and
treats as a trusted library call; it escapes the HTML-sensitive characters
(`&`, `<`, `>`, the double quote and the apostrophe, code 39) to character
references and passes every other character through. -/
def heEncode (text : List Char) : List Char :=
  text.bind fun c =>
    if c = '&' then "&amp;".toList
    else if c = '<' then "&lt;".toList
    else if c = '>' then "&gt;".toList
    else if c = '"' then "&quot;".toList
    else if c = Char.ofNat 39 then "&#x27;".toList
    else [c]

/-- `class TemplateString`: the template object's state (`_tokenIndex` and
`_tokens` are transient parse state, local to `_parse` in this model). -/
structure TemplateString where
  _template : Option (List Char) := none
  _segments : Option (List Segment) := none
  _formatterMap : List (List Char × FieldFormatter) := []

/-- `getTemplateString()` (`none` is the uninitialized `null`). -/
def TemplateString.getTemplateString (t : TemplateString) : Option (List Char) :=
  t._template

/-- `setTemplateString(template)`: store the raw string and its parsed
segments; `none` models the propagated fatal lexer failure. -/
def TemplateString.setTemplateString (t : TemplateString) (template : List Char) :
    Option TemplateString :=
  (_parse template).map fun segs =>
    { t with _template := some template, _segments := some segs }

/-- `addFormatter(namespace, formatter)`: register under the lower-cased
namespace. -/
def TemplateString.addFormatter (t : TemplateString) (ns : List Char)
    (formatter : FieldFormatter) : TemplateString :=
  { t with _formatterMap := mapSet t._formatterMap (ns.map Char.toLower) formatter }

/-- The `switch (segment.type)` body of `formatHtml()` for one segment:
text is HTML-escaped; a field is resolved through the formatter map by
lower-cased namespace (empty string when absent); an error segment renders
as the empty string. -/
def formatHtmlSegment (fmap : List (List Char × FieldFormatter)) (segment : Segment) :
    List Char :=
  match segment.type with
  | SegmentType.text => heEncode segment.text
  | SegmentType.field =>
    match mapGet fmap (segment.«namespace».map Char.toLower) with
    | none => []
    | some formatter => formatter.formatHtml segment.key
  | SegmentType.error => []

/-- `formatHtml()`: map the plain per-segment render over the segments and
join. -/
def TemplateString.formatHtml (t : TemplateString) : Option (List Char) :=
  t._segments.map fun segs => (segs.map (formatHtmlSegment t._formatterMap)).join

/-- The `switch (segment.type)` body of `formatDiagnosticHtml()` for one
segment: every segment is wrapped in a labeled span; an unknown namespace
and a malformed run render a visible `Unknown '…'` marker; a formatter
error message (non-null `getErrorMessage`) replaces the field's value. -/
def formatDiagnosticHtmlSegment (fmap : List (List Char × FieldFormatter))
    (segment : Segment) : List Char :=
  match segment.type with
  | SegmentType.text =>
    "<span class=\"segment_text\">".toList ++ heEncode segment.text ++ "</span>".toList
  | SegmentType.field =>
    match mapGet fmap (segment.«namespace».map Char.toLower) with
    | none =>
      "<span class=\"segment_error\">Unknown '".toList ++ segment.«namespace» ++
        "'</span>".toList
    | some formatter =>
      match formatter.getErrorMessage segment.key with
      | none =>
        "<span class=\"segment_field\">".toList ++ formatter.formatHtml segment.key ++
          "</span>".toList
      | some errorMsg =>
        "<span class=\"segment_error\">".toList ++ errorMsg ++ "</span>".toList
  | SegmentType.error =>
    "<span class=\"segment_error\">Unknown '".toList ++ segment.text ++ "'</span>".toList

/-- `formatDiagnosticHtml()`: map the diagnostic per-segment render over
the segments and join. -/
def TemplateString.formatDiagnosticHtml (t : TemplateString) : Option (List Char) :=
  t._segments.map fun segs => (segs.map (formatDiagnosticHtmlSegment t._formatterMap)).join

/-! Evaluation lemmas for the embedded regexes, used to settle which rule
fires on a given first character. -/

theorem matchLit_head_ne {a c : Char} (l cs : List Char) (h : a ≠ c) :
    matchLit (a :: l) (c :: cs) = none := by
  simp [matchLit, List.isPrefixOf, h]

theorem matchLit_nil_input (a : Char) (l : List Char) : matchLit (a :: l) [] = none := by
  simp [matchLit, List.isPrefixOf]

theorem matchLit_singleton_eq (a : Char) (cs : List Char) :
    matchLit [a] (a :: cs) = some ([a], cs) := by
  simp [matchLit, List.isPrefixOf]

theorem matchLit_pair_eq (a b : Char) (cs : List Char) :
    matchLit [a, b] (a :: b :: cs) = some ([a, b], cs) := by
  simp [matchLit, List.isPrefixOf]

theorem matchLit_pair_ne₂ {b d : Char} (a c : Char) (cs : List Char) (h : b ≠ d) :
    matchLit [a, b] (c :: d :: cs) = none := by
  simp [matchLit, List.isPrefixOf, h]

theorem matchLit_pair_singleton (a b c : Char) : matchLit [a, b] [c] = none := by
  simp [matchLit, List.isPrefixOf]

theorem matchRun_pos {p : Char → Bool} {c : Char} (cs : List Char) (h : p c = true) :
    matchRun p (c :: cs) = some (c :: cs.takeWhile p, cs.dropWhile p) := by
  simp [matchRun, List.takeWhile_cons, List.dropWhile_cons, h]

theorem matchRun_neg {p : Char → Bool} {c : Char} (cs : List Char) (h : p c = false) :
    matchRun p (c :: cs) = none := by
  simp [matchRun, List.takeWhile_cons, h]

/-- Rule exhaustiveness: in both lexer states, some rule matches every
non-empty input (the NORMAL rules fall back to single-character STRING
matches, the FIELD rules cover `:`/`}`/everything else). -/
theorem runRules_total (state : LexerState) (c : Char) (cs : List Char) :
    (runRules (LexerStateRules state) (c :: cs)).isSome := by
  cases state
  · by_cases h1 : c = '$'
    · subst h1
      match cs with
      | [] => decide
      | '{' :: ds =>
        simp [LexerStateRules, NormalParseRules, runRules, matchLit_pair_eq]
      | d :: ds =>
        by_cases h2 : d = '{'
        · subst h2
          simp [LexerStateRules, NormalParseRules, runRules, matchLit_pair_eq]
        · have e1 : matchLit ['$', '{'] ('$' :: d :: ds) = none :=
            matchLit_pair_ne₂ _ _ _ (fun h => h2 h.symm)
          have e2 : matchLit ['\\', '$'] ('$' :: d :: ds) = none :=
            matchLit_head_ne _ _ (by decide)
          have e3 : matchRun isNormalChar ('$' :: d :: ds) = none :=
            matchRun_neg _ (by decide)
          have e4 : matchLit ['$'] ('$' :: d :: ds) = some (['$'], d :: ds) :=
            matchLit_singleton_eq _ _
          simp [LexerStateRules, NormalParseRules, runRules, e1, e2, e3, e4]
    · by_cases h2 : c = '\\'
      · subst h2
        match cs with
        | [] => decide
        | '$' :: ds =>
          have e1 : matchLit ['$', '{'] ('\\' :: '$' :: ds) = none :=
            matchLit_head_ne _ _ (by decide)
          have e2 : matchLit ['\\', '$'] ('\\' :: '$' :: ds) = some (['\\', '$'], ds) :=
            matchLit_pair_eq _ _ _
          simp [LexerStateRules, NormalParseRules, runRules, e1, e2]
        | d :: ds =>
          by_cases h3 : d = '$'
          · subst h3
            have e1 : matchLit ['$', '{'] ('\\' :: '$' :: ds) = none :=
              matchLit_head_ne _ _ (by decide)
            have e2 : matchLit ['\\', '$'] ('\\' :: '$' :: ds) = some (['\\', '$'], ds) :=
              matchLit_pair_eq _ _ _
            simp [LexerStateRules, NormalParseRules, runRules, e1, e2]
          · have e1 : matchLit ['$', '{'] ('\\' :: d :: ds) = none :=
              matchLit_head_ne _ _ (by decide)
            have e2 : matchLit ['\\', '$'] ('\\' :: d :: ds) = none :=
              matchLit_pair_ne₂ _ _ _ (fun h => h3 h.symm)
            have e3 : matchRun isNormalChar ('\\' :: d :: ds) = none :=
              matchRun_neg _ (by decide)
            have e4 : matchLit ['$'] ('\\' :: d :: ds) = none :=
              matchLit_head_ne _ _ (by decide)
            have e5 : matchLit ['\\'] ('\\' :: d :: ds) = some (['\\'], d :: ds) :=
              matchLit_singleton_eq _ _
            simp [LexerStateRules, NormalParseRules, runRules, e1, e2, e3, e4, e5]
      · have hn : isNormalChar c = true := by
          simp [isNormalChar, h1, h2]
        cases cs with
        | nil =>
          have e1 : matchLit ['$', '{'] [c] = matchLit ['$', '{'] (c :: ([] : List Char)) := rfl
          have e1' : matchLit ['$', '{'] (c :: ([] : List Char)) = none :=
            matchLit_head_ne _ _ (fun h => h1 h.symm)
          have e2 : matchLit ['\\', '$'] (c :: ([] : List Char)) = none :=
            matchLit_head_ne _ _ (fun h => h2 h.symm)
          have e3 : matchRun isNormalChar (c :: ([] : List Char)) =
              some (c :: List.takeWhile isNormalChar [], List.dropWhile isNormalChar []) :=
            matchRun_pos _ hn
          simp [LexerStateRules, NormalParseRules, runRules, e1', e2, e3]
        | cons d ds =>
          have e1 : matchLit ['$', '{'] (c :: d :: ds) = none :=
            matchLit_head_ne _ _ (fun h => h1 h.symm)
          have e2 : matchLit ['\\', '$'] (c :: d :: ds) = none :=
            matchLit_head_ne _ _ (fun h => h2 h.symm)
          have e3 : matchRun isNormalChar (c :: d :: ds) =
              some (c :: List.takeWhile isNormalChar (d :: ds),
                List.dropWhile isNormalChar (d :: ds)) :=
            matchRun_pos _ hn
          simp [LexerStateRules, NormalParseRules, runRules, e1, e2, e3]
  · by_cases h1 : c = ':'
    · subst h1
      have e1 : matchRun isSymbolChar (':' :: cs) = none := matchRun_neg _ (by decide)
      have e2 : matchLit [':'] (':' :: cs) = some ([':'], cs) := matchLit_singleton_eq _ _
      simp [LexerStateRules, FieldParseRules, runRules, e1, e2]
    · by_cases h2 : c = '}'
      · subst h2
        have e1 : matchRun isSymbolChar ('}' :: cs) = none := matchRun_neg _ (by decide)
        have e2 : matchLit [':'] ('}' :: cs) = none := matchLit_head_ne _ _ (by decide)
        have e3 : matchLit ['}'] ('}' :: cs) = some (['}'], cs) := matchLit_singleton_eq _ _
        simp [LexerStateRules, FieldParseRules, runRules, e1, e2, e3]
      · have hs : isSymbolChar c = true := by
          simp [isSymbolChar, h1, h2]
        have e1 : matchRun isSymbolChar (c :: cs) =
            some (c :: List.takeWhile isSymbolChar cs, List.dropWhile isSymbolChar cs) :=
          matchRun_pos _ hs
        simp [LexerStateRules, FieldParseRules, runRules, e1]

/-- The lex loop succeeds on every input (by strong induction on the input
length, using rule exhaustiveness and rule progress). -/
theorem lexLoop_isSome (n : Nat) : ∀ (state : LexerState) (input : List Char),
    input.length ≤ n → (lexLoop state input).isSome := by
  induction n with
  | zero =>
    intro state input h
    have : input = [] := List.eq_nil_of_length_eq_zero (Nat.le_zero.mp h)
    subst this
    rw [lexLoop]
    simp
  | succ n ih =>
    intro state input h
    rw [lexLoop]
    cases input with
    | nil => simp
    | cons c cs =>
      simp only [List.isEmpty_cons, Bool.false_eq_true, if_false]
      split
      · rename_i hm
        have := runRules_total state c cs
        rw [hm] at this
        cases this
      · rename_i tok rest newState hm
        have hlt : rest.length < (c :: cs).length := runRules_progress state hm
        have hrec := ih newState rest (by simp at h hlt ⊢; omega)
        simpa using hrec

theorem lexLoop_nil (state : LexerState) : lexLoop state [] = some [] := by
  rw [lexLoop]
  simp

/-- One iteration of the lex loop, given which rule fires. -/
theorem lexLoop_cons_eq {state : LexerState} {input : List Char} (hne : input ≠ [])
    {tok : Token} {rest : List Char} {st : LexerState}
    (h : runRules (LexerStateRules state) input = some (tok, rest, st)) :
    lexLoop state input = (lexLoop st rest).map fun toks => tok :: toks := by
  rw [lexLoop]
  have hie : input.isEmpty = false := by simp [List.isEmpty_iff, hne]
  rw [hie]
  simp only [Bool.false_eq_true, if_false]
  split
  · rename_i hm
    rw [hm] at h
    cases h
  · rename_i tok' rest' st' hm
    rw [hm] at h
    simp only [Option.some.injEq, Prod.mk.injEq] at h
    obtain ⟨h1, h2, h3⟩ := h
    rw [h1, h2, h3]

/-! Directional evaluation of the rule tables on each class of first
character. -/

theorem runRules_normal_openBracket (ds : List Char) :
    runRules (LexerStateRules LexerState.NORMAL) ('$' :: '{' :: ds) =
      some ({ type := TokenType.OPEN_BRACKET, text := ['$', '{'] }, ds, LexerState.FIELD) := by
  simp [LexerStateRules, NormalParseRules, runRules, matchLit_pair_eq]

theorem runRules_normal_escape (ds : List Char) :
    runRules (LexerStateRules LexerState.NORMAL) ('\\' :: '$' :: ds) =
      some ({ type := TokenType.ESCAPE_DOLLAR, text := ['\\', '$'] }, ds, LexerState.NORMAL) := by
  have e1 : matchLit ['$', '{'] ('\\' :: '$' :: ds) = none := matchLit_head_ne _ _ (by decide)
  have e2 : matchLit ['\\', '$'] ('\\' :: '$' :: ds) = some (['\\', '$'], ds) :=
    matchLit_pair_eq _ _ _
  simp [LexerStateRules, NormalParseRules, runRules, e1, e2]

theorem runRules_normal_run {c : Char} (cs : List Char) (h : isNormalChar c = true) :
    runRules (LexerStateRules LexerState.NORMAL) (c :: cs) =
      some ({ type := TokenType.STRING, text := c :: cs.takeWhile isNormalChar },
        cs.dropWhile isNormalChar, LexerState.NORMAL) := by
  have hc : ¬(c = '$') ∧ ¬(c = '\\') := by
    constructor <;> intro hh <;> subst hh <;> simp [isNormalChar] at h
  cases cs with
  | nil =>
    have e1 : matchLit ['$', '{'] (c :: ([] : List Char)) = none := by
      simp [matchLit, List.isPrefixOf, hc.1]
    have e2 : matchLit ['\\', '$'] (c :: ([] : List Char)) = none := by
      simp [matchLit, List.isPrefixOf, hc.2]
    have e3 : matchRun isNormalChar (c :: ([] : List Char)) =
        some (c :: List.takeWhile isNormalChar [], List.dropWhile isNormalChar []) :=
      matchRun_pos _ h
    simp [LexerStateRules, NormalParseRules, runRules, e1, e2, e3]
  | cons d ds =>
    have e1 : matchLit ['$', '{'] (c :: d :: ds) = none :=
      matchLit_head_ne _ _ (fun hh => hc.1 hh.symm)
    have e2 : matchLit ['\\', '$'] (c :: d :: ds) = none :=
      matchLit_head_ne _ _ (fun hh => hc.2 hh.symm)
    have e3 : matchRun isNormalChar (c :: d :: ds) =
        some (c :: List.takeWhile isNormalChar (d :: ds),
          List.dropWhile isNormalChar (d :: ds)) :=
      matchRun_pos _ h
    simp [LexerStateRules, NormalParseRules, runRules, e1, e2, e3]

theorem runRules_field_run {c : Char} (cs : List Char) (h : isSymbolChar c = true) :
    runRules (LexerStateRules LexerState.FIELD) (c :: cs) =
      some ({ type := TokenType.SYMBOL, text := c :: cs.takeWhile isSymbolChar },
        cs.dropWhile isSymbolChar, LexerState.FIELD) := by
  have e1 : matchRun isSymbolChar (c :: cs) =
      some (c :: List.takeWhile isSymbolChar cs, List.dropWhile isSymbolChar cs) :=
    matchRun_pos _ h
  simp [LexerStateRules, FieldParseRules, runRules, e1]

theorem runRules_field_colon (cs : List Char) :
    runRules (LexerStateRules LexerState.FIELD) (':' :: cs) =
      some ({ type := TokenType.COLON, text := [':'] }, cs, LexerState.FIELD) := by
  have e1 : matchRun isSymbolChar (':' :: cs) = none := matchRun_neg _ (by decide)
  have e2 : matchLit [':'] (':' :: cs) = some ([':'], cs) := matchLit_singleton_eq _ _
  simp [LexerStateRules, FieldParseRules, runRules, e1, e2]

theorem runRules_field_close (cs : List Char) :
    runRules (LexerStateRules LexerState.FIELD) ('}' :: cs) =
      some ({ type := TokenType.CLOSE_BRACKET, text := ['}'] }, cs, LexerState.NORMAL) := by
  have e1 : matchRun isSymbolChar ('}' :: cs) = none := matchRun_neg _ (by decide)
  have e2 : matchLit [':'] ('}' :: cs) = none := matchLit_head_ne _ _ (by decide)
  have e3 : matchLit ['}'] ('}' :: cs) = some (['}'], cs) := matchLit_singleton_eq _ _
  simp [LexerStateRules, FieldParseRules, runRules, e1, e2, e3]

/-- A run of characters that satisfy `p` followed by a stopper splits
`takeWhile`/`dropWhile` exactly at the stopper. -/
theorem takeWhile_append_stop {p : Char → Bool} {a : List Char} (x : Char) (b : List Char)
    (ha : ∀ c ∈ a, p c = true) (hx : p x = false) :
    (a ++ x :: b).takeWhile p = a ∧ (a ++ x :: b).dropWhile p = x :: b := by
  induction a with
  | nil => simp [List.takeWhile_cons, List.dropWhile_cons, hx]
  | cons c cs ih => simp_all [List.takeWhile_cons, List.dropWhile_cons]

/-- Lexing a non-empty run of ordinary characters (no `$`, no `\`)
produces a single STRING token holding the whole input. -/
theorem lexLoop_allNormal_cons (c : Char) (cs : List Char)
    (h : ∀ x ∈ c :: cs, isNormalChar x = true) :
    lexLoop LexerState.NORMAL (c :: cs) = some [{ type := TokenType.STRING, text := c :: cs }] := by
  have hrun := runRules_normal_run cs (h c (List.mem_cons_self _ _))
  rw [lexLoop_cons_eq (by simp) hrun]
  have ht : cs.takeWhile isNormalChar = cs :=
    List.takeWhile_eq_self_iff.mpr fun x hx => h x (List.mem_cons_of_mem _ hx)
  have hd : cs.dropWhile isNormalChar = [] :=
    List.dropWhile_eq_nil_iff.mpr fun x hx => h x (List.mem_cons_of_mem _ hx)
  rw [ht, hd, lexLoop_nil]
  rfl

/-- Lexing `${ns:key}` (with `ns`, `key` non-empty and free of `:`/`}`)
produces exactly the five field tokens. -/
theorem lex_completeField (ns key : List Char) (hns : ns ≠ []) (hkey : key ≠ [])
    (hns2 : ∀ c ∈ ns, isSymbolChar c = true) (hkey2 : ∀ c ∈ key, isSymbolChar c = true) :
    lex ('$' :: '{' :: (ns ++ (':' :: (key ++ ['}'])))) = some [
      { type := TokenType.OPEN_BRACKET, text := ['$', '{'] },
      { type := TokenType.SYMBOL, text := ns },
      { type := TokenType.COLON, text := [':'] },
      { type := TokenType.SYMBOL, text := key },
      { type := TokenType.CLOSE_BRACKET, text := ['}'] }] := by
  obtain ⟨n0, ns', rfl⟩ := List.exists_cons_of_ne_nil hns
  obtain ⟨k0, key', rfl⟩ := List.exists_cons_of_ne_nil hkey
  unfold lex
  rw [lexLoop_cons_eq (by simp) (runRules_normal_openBracket _)]
  have hsplit1 := takeWhile_append_stop (p := isSymbolChar) ':' ((k0 :: key') ++ ['}'])
    (fun c hc => hns2 c (List.mem_cons_of_mem _ hc)) (by decide)
  have hstep1 := runRules_field_run (ns' ++ (':' :: ((k0 :: key') ++ ['}'])))
    (hns2 n0 (List.mem_cons_self _ _))
  rw [show (n0 :: ns') ++ (':' :: ((k0 :: key') ++ ['}'])) =
      n0 :: (ns' ++ (':' :: ((k0 :: key') ++ ['}']))) from rfl]
  rw [lexLoop_cons_eq (by simp) hstep1, hsplit1.1, hsplit1.2]
  rw [lexLoop_cons_eq (by simp) (runRules_field_colon _)]
  have hsplit2 := takeWhile_append_stop (p := isSymbolChar) '}' ([] : List Char)
    (fun c hc => hkey2 c (List.mem_cons_of_mem _ hc)) (by decide)
  have hstep2 := runRules_field_run (key' ++ ['}']) (hkey2 k0 (List.mem_cons_self _ _))
  rw [show (k0 :: key') ++ ['}'] = k0 :: (key' ++ ('}' :: ([] : List Char))) from rfl]
  rw [show key' ++ ['}'] = key' ++ ('}' :: ([] : List Char)) from rfl] at hstep2
  rw [lexLoop_cons_eq (by simp) hstep2, hsplit2.1, hsplit2.2]
  rw [lexLoop_cons_eq (by simp) (runRules_field_close _), lexLoop_nil]
  rfl

/-- Lexing the unterminated `${ns:key` produces the four tokens of the
open field with no CLOSE_BRACKET. -/
theorem lex_unterminatedField (ns key : List Char) (hns : ns ≠ []) (hkey : key ≠ [])
    (hns2 : ∀ c ∈ ns, isSymbolChar c = true) (hkey2 : ∀ c ∈ key, isSymbolChar c = true) :
    lex ('$' :: '{' :: (ns ++ (':' :: key))) = some [
      { type := TokenType.OPEN_BRACKET, text := ['$', '{'] },
      { type := TokenType.SYMBOL, text := ns },
      { type := TokenType.COLON, text := [':'] },
      { type := TokenType.SYMBOL, text := key }] := by
  obtain ⟨n0, ns', rfl⟩ := List.exists_cons_of_ne_nil hns
  obtain ⟨k0, key', rfl⟩ := List.exists_cons_of_ne_nil hkey
  unfold lex
  rw [lexLoop_cons_eq (by simp) (runRules_normal_openBracket _)]
  have hsplit1 := takeWhile_append_stop (p := isSymbolChar) ':' (k0 :: key')
    (fun c hc => hns2 c (List.mem_cons_of_mem _ hc)) (by decide)
  have hstep1 := runRules_field_run (ns' ++ (':' :: (k0 :: key')))
    (hns2 n0 (List.mem_cons_self _ _))
  rw [show (n0 :: ns') ++ (':' :: (k0 :: key')) =
      n0 :: (ns' ++ (':' :: (k0 :: key'))) from rfl]
  rw [lexLoop_cons_eq (by simp) hstep1, hsplit1.1, hsplit1.2]
  rw [lexLoop_cons_eq (by simp) (runRules_field_colon _)]
  have ht : (key').takeWhile isSymbolChar = key' :=
    List.takeWhile_eq_self_iff.mpr fun x hx => hkey2 x (List.mem_cons_of_mem _ hx)
  have hd : (key').dropWhile isSymbolChar = [] :=
    List.dropWhile_eq_nil_iff.mpr fun x hx => hkey2 x (List.mem_cons_of_mem _ hx)
  rw [lexLoop_cons_eq (by simp) (runRules_field_run key' (hkey2 k0 (List.mem_cons_self _ _)))]
  rw [ht, hd, lexLoop_nil]
  rfl

theorem parseLoop_nil : _parseLoop [] = [] := by
  rw [_parseLoop]
  simp [_peekTokenType]

/-- The segment loop on a single STRING token yields one width-annotated
Text segment. -/
theorem parseLoop_singleString (s : List Char) (hs : s ≠ []) :
    _parseLoop [{ type := TokenType.STRING, text := s }] =
      [{ type := SegmentType.text, text := s, startColumn := 0, endColumn := s.length }] := by
  rw [_parseLoop]
  simp [_peekTokenType, _processTextStateTokens, textRun, _processFieldStateTokens,
    parseLoop_nil, List.isEmpty_iff, hs]

/-- The segment loop on the five field tokens yields one width-annotated
Field segment. -/
theorem parseLoop_completeField (ns key : List Char) :
    _parseLoop [
      { type := TokenType.OPEN_BRACKET, text := ['$', '{'] },
      { type := TokenType.SYMBOL, text := ns },
      { type := TokenType.COLON, text := [':'] },
      { type := TokenType.SYMBOL, text := key },
      { type := TokenType.CLOSE_BRACKET, text := ['}'] }] =
      [{ type := SegmentType.field, «namespace» := ns, key := key,
         startColumn := 0, endColumn := 2 + ns.length + 1 + key.length + 1 }] := by
  rw [_parseLoop]
  simp [_peekTokenType, _processTextStateTokens, textRun, _processFieldStateTokens,
    _checkFieldTokens, List.drop, parseLoop_nil]

/-- The segment loop on the four unterminated-field tokens yields one
width-annotated Error segment carrying the raw text. -/
theorem parseLoop_unterminatedField (ns key : List Char) :
    _parseLoop [
      { type := TokenType.OPEN_BRACKET, text := ['$', '{'] },
      { type := TokenType.SYMBOL, text := ns },
      { type := TokenType.COLON, text := [':'] },
      { type := TokenType.SYMBOL, text := key }] =
      [{ type := SegmentType.error, text := '$' :: '{' :: (ns ++ (':' :: key)), error := [],
         startColumn := 0,
         endColumn := ('$' :: '{' :: (ns ++ (':' :: key))).length }] := by
  rw [_parseLoop]
  simp [_peekTokenType, _processTextStateTokens, textRun, _processFieldStateTokens,
    _checkFieldTokens, List.drop, _processBadField, badRun, parseLoop_nil]

/-- Parsing a non-empty `$`/`\`-free template yields one Text segment
covering `[0, length)`. -/
theorem parse_allNormal (template : List Char) (hne : template ≠ [])
    (h : ∀ c ∈ template, isNormalChar c = true) :
    _parse template = some [{ type := SegmentType.text, text := template,
                              startColumn := 0, endColumn := template.length }] := by
  obtain ⟨c, cs, rfl⟩ := List.exists_cons_of_ne_nil hne
  unfold _parse lex
  rw [lexLoop_allNormal_cons c cs h]
  simp only [Option.map_some']
  rw [parseLoop_singleString _ (by simp)]
  simp [fixColumns]

/-- Parsing `${ns:key}` yields exactly one Field segment. -/
theorem parse_completeField (ns key : List Char) (hns : ns ≠ []) (hkey : key ≠ [])
    (hns2 : ∀ c ∈ ns, isSymbolChar c = true) (hkey2 : ∀ c ∈ key, isSymbolChar c = true) :
    _parse ('$' :: '{' :: (ns ++ (':' :: (key ++ ['}'])))) =
      some [{ type := SegmentType.field, «namespace» := ns, key := key,
               startColumn := 0, endColumn := 2 + ns.length + 1 + key.length + 1 }] := by
  unfold _parse
  rw [lex_completeField ns key hns hkey hns2 hkey2]
  simp only [Option.map_some']
  rw [parseLoop_completeField]
  simp [fixColumns]

/-- Parsing the unterminated `${ns:key` yields exactly one Error segment
carrying the full raw text. -/
theorem parse_unterminatedField (ns key : List Char) (hns : ns ≠ []) (hkey : key ≠ [])
    (hns2 : ∀ c ∈ ns, isSymbolChar c = true) (hkey2 : ∀ c ∈ key, isSymbolChar c = true) :
    _parse ('$' :: '{' :: (ns ++ (':' :: key))) =
      some [{ type := SegmentType.error, text := '$' :: '{' :: (ns ++ (':' :: key)),
               error := [], startColumn := 0,
               endColumn := ('$' :: '{' :: (ns ++ (':' :: key))).length }] := by
  unfold _parse
  rw [lex_unterminatedField ns key hns hkey hns2 hkey2]
  simp only [Option.map_some']
  rw [parseLoop_unterminatedField]
  simp [fixColumns]

/-- C2: the lexer `lex` is a total function: for every input string it
produces a token sequence; the fatal "Unable to parse!" branch (modelled
by `none`) is unreachable because in both the NORMAL and FIELD states
every possible next character is matched by at least one rule. -/
theorem claim_C2_lex_total (input : List Char) : ∃ toks, lex input = some toks := by
  have h := lexLoop_isSome input.length LexerState.NORMAL input le_rfl
  exact Option.isSome_iff_exists.mp h

/-- C3: for non-empty `ns` and `key` containing neither `:` nor `}`,
parsing the template `${ns:key}` yields exactly one Field segment whose
namespace is `ns` and key is `key` (the raw symbol text, not resolved). -/
theorem claim_C3_completeField_parses (ns key : List Char) (hns : ns ≠ []) (hkey : key ≠ [])
    (hns2 : ∀ c ∈ ns, c ≠ ':' ∧ c ≠ '}') (hkey2 : ∀ c ∈ key, c ≠ ':' ∧ c ≠ '}') :
    _parse ("$\x7b".toList ++ ns ++ ":".toList ++ key ++ "\x7d".toList) =
      some [{ type := SegmentType.field, «namespace» := ns, key := key, startColumn := 0,
              endColumn := 2 + ns.length + 1 + key.length + 1 }] := by
  have hshape : "$\x7b".toList ++ ns ++ ":".toList ++ key ++ "\x7d".toList =
      '$' :: '{' :: (ns ++ (':' :: (key ++ ['}']))) := by simp
  rw [hshape]
  exact parse_completeField ns key hns hkey
    (fun c hc => by simp [isSymbolChar, (hns2 c hc).1, (hns2 c hc).2])
    (fun c hc => by simp [isSymbolChar, (hkey2 c hc).1, (hkey2 c hc).2])

/-- Witness for C3 at `ns = "user"`, `key = "name"`. -/
theorem claim_C3_witness :
    ("user".toList ≠ [] ∧ "name".toList ≠ [] ∧
      (∀ c ∈ "user".toList, c ≠ ':' ∧ c ≠ '}') ∧
      (∀ c ∈ "name".toList, c ≠ ':' ∧ c ≠ '}')) ∧
    _parse ("${user:name}".toList) =
      some [{ type := SegmentType.field, «namespace» := "user".toList, key := "name".toList,
              startColumn := 0, endColumn := 12 }] := by
  refine ⟨by decide, ?_⟩
  have h := claim_C3_completeField_parses "user".toList "name".toList (by decide) (by decide)
    (by decide) (by decide)
  simpa using h

/-- C4 counterexample: the empty template contains no `$` and no `\`, yet
parsing yields zero segments, not exactly one Text segment. -/
theorem claim_C4_counterexample :
    (∀ c ∈ ("".toList), c ≠ '$' ∧ c ≠ '\\') ∧ _parse "".toList = some [] ∧
    ∀ s : Segment, _parse "".toList ≠ some [s] := by
  have hp : _parse "".toList = some [] := by
    unfold _parse lex
    rw [show ("".toList) = ([] : List Char) from rfl, lexLoop_nil]
    simp [parseLoop_nil, fixColumns]
  refine ⟨by decide, hp, ?_⟩
  intro s h
  rw [hp] at h
  simp at h

/-- C4 (amended to non-empty templates): for every non-empty template with
no `$` and no `\`, parsing yields exactly one Text segment whose text is
the input, with columns `[0, length)`. -/
theorem claim_C4_text_only (template : List Char) (hne : template ≠ [])
    (h : ∀ c ∈ template, c ≠ '$' ∧ c ≠ '\\') :
    _parse template = some [{ type := SegmentType.text, text := template, startColumn := 0,
                              endColumn := template.length }] := by
  exact parse_allNormal template hne
    (fun c hc => by simp [isNormalChar, (h c hc).1, (h c hc).2])

/-- Witness for C4 (amended) at template `"abc"`. -/
theorem claim_C4_witness :
    ("abc".toList ≠ [] ∧ (∀ c ∈ "abc".toList, c ≠ '$' ∧ c ≠ '\\')) ∧
    _parse "abc".toList =
      some [{ type := SegmentType.text, text := "abc".toList, startColumn := 0,
              endColumn := 3 }] := by
  refine ⟨by decide, ?_⟩
  have h := claim_C4_text_only "abc".toList (by decide) (by decide)
  simpa using h

/-- C5: an unterminated field `${ns:key}` missing its closing brace parses
to a single Error segment carrying the raw unclosed source text, and
parsing terminates normally (no fatal lexer failure). -/
theorem claim_C5_unterminated_field (ns key : List Char) (hns : ns ≠ []) (hkey : key ≠ [])
    (hns2 : ∀ c ∈ ns, c ≠ ':' ∧ c ≠ '}') (hkey2 : ∀ c ∈ key, c ≠ ':' ∧ c ≠ '}') :
    _parse ("$\x7b".toList ++ ns ++ ":".toList ++ key) =
      some [{ type := SegmentType.error, text := "$\x7b".toList ++ ns ++ ":".toList ++ key,
              error := [], startColumn := 0,
              endColumn := ("$\x7b".toList ++ ns ++ ":".toList ++ key).length }] := by
  have hshape : "$\x7b".toList ++ ns ++ ":".toList ++ key =
      '$' :: '{' :: (ns ++ (':' :: key)) := by simp
  rw [hshape]
  exact parse_unterminatedField ns key hns hkey
    (fun c hc => by simp [isSymbolChar, (hns2 c hc).1, (hns2 c hc).2])
    (fun c hc => by simp [isSymbolChar, (hkey2 c hc).1, (hkey2 c hc).2])

/-- Witness for C5 at `ns = "ns"`, `key = "key"` (template `"${ns:key"`). -/
theorem claim_C5_witness :
    ("ns".toList ≠ [] ∧ "key".toList ≠ [] ∧
      (∀ c ∈ "ns".toList, c ≠ ':' ∧ c ≠ '}') ∧
      (∀ c ∈ "key".toList, c ≠ ':' ∧ c ≠ '}')) ∧
    _parse ("$\x7bns:key".toList) =
      some [{ type := SegmentType.error, text := "$\x7bns:key".toList, error := [],
              startColumn := 0, endColumn := 8 }] := by
  refine ⟨by decide, ?_⟩
  have h := claim_C5_unterminated_field "ns".toList "key".toList (by decide) (by decide)
    (by decide) (by decide)
  simpa using h

/-- The text phase stops at a token it does not consume: the head of its
remainder is never STRING or ESCAPE_DOLLAR. -/
theorem textRun_stuck (toks : List Token) :
    ∀ t rest, (textRun toks).2.2 = t :: rest →
      t.type ≠ TokenType.STRING ∧ t.type ≠ TokenType.ESCAPE_DOLLAR := by
  induction toks with
  | nil => intro t rest h; simp [textRun] at h
  | cons hd tl ih =>
    intro t rest h
    obtain ⟨ty, tx⟩ := hd
    cases ty <;> simp only [textRun] at h <;>
      first
        | exact ih t rest h
        | (obtain ⟨h1, h2⟩ := List.cons.injEq .. ▸ h
           cases h
           simp)

/-- C6: each iteration of the segment-parser loop strictly advances the
token cursor: with tokens remaining, the combined text phase and field
phase strictly shorten the token list (so the text phase consumes zero
tokens only when the field phase then consumes at least one), and the
field phase on its own consumes at least one token whenever tokens remain
after the text phase. -/
theorem claim_C6_parse_progress :
    (∀ toks : List Token, _peekTokenType toks ≠ TokenType.EOF →
      (_processFieldStateTokens (_processTextStateTokens toks).2).2.length < toks.length) ∧
    (∀ toks : List Token,
      _peekTokenType (_processTextStateTokens toks).2 ≠ TokenType.EOF →
      (_processFieldStateTokens (_processTextStateTokens toks).2).2.length <
        (_processTextStateTokens toks).2.length) := by
  constructor
  · exact parse_progress
  · intro toks h
    have hrest : (_processTextStateTokens toks).2 = (textRun toks).2.2 := rfl
    rw [hrest] at h ⊢
    cases hr : (textRun toks).2.2 with
    | nil => rw [hr] at h; exact absurd rfl h
    | cons t rest =>
      rw [hr] at h
      have hstuck := textRun_stuck toks t rest hr
      have ht : t.type ≠ TokenType.EOF := by simpa [_peekTokenType] using h
      exact fieldState_rest_lt t rest hstuck.1 hstuck.2 ht

/-- Witness for C6 on the token sequence of `"${x"` (an OPEN_BRACKET then
a SYMBOL). -/
theorem claim_C6_witness :
    ((_processFieldStateTokens (_processTextStateTokens
        [{ type := TokenType.OPEN_BRACKET, text := ['$', '{'] },
         { type := TokenType.SYMBOL, text := ['x'] }]).2).2.length <
      ([{ type := TokenType.OPEN_BRACKET, text := ['$', '{'] },
         { type := TokenType.SYMBOL, text := ['x'] }] : List Token).length) ∧
    ((_processFieldStateTokens (_processTextStateTokens
        [{ type := TokenType.OPEN_BRACKET, text := ['$', '{'] },
         { type := TokenType.SYMBOL, text := ['x'] }]).2).2.length <
      (_processTextStateTokens
        [{ type := TokenType.OPEN_BRACKET, text := ['$', '{'] },
         { type := TokenType.SYMBOL, text := ['x'] }]).2.length) :=
  ⟨claim_C6_parse_progress.1 _ (by decide), claim_C6_parse_progress.2 _ (by decide)⟩

/-- Source-width well-formedness of a token: the punctuation and escape
tokens carry their matched source text (so its length is fixed), and the
EOF sentinel is never materialized. -/
def WfToken (t : Token) : Prop :=
  (t.type = TokenType.OPEN_BRACKET → t.text.length = 2) ∧
  (t.type = TokenType.ESCAPE_DOLLAR → t.text.length = 2) ∧
  (t.type = TokenType.COLON → t.text.length = 1) ∧
  (t.type = TokenType.CLOSE_BRACKET → t.text.length = 1) ∧
  t.type ≠ TokenType.EOF

/-- A rule is width-well-formed when every token it emits is. -/
def RuleWf (r : LexMatcher) : Prop :=
  ∀ input txt rest, r.matchFn input = some (txt, rest) →
    WfToken { type := r.type, text := txt }

theorem matchLit_txt {lit input txt rest : List Char}
    (h : matchLit lit input = some (txt, rest)) : txt = lit := by
  unfold matchLit at h
  split at h
  · cases h; rfl
  · cases h

theorem lexerStateRules_wf (state : LexerState) :
    ∀ r ∈ LexerStateRules state, RuleWf r := by
  intro r hr
  cases state <;> simp only [LexerStateRules, NormalParseRules, FieldParseRules,
    List.mem_cons, List.mem_singleton, List.not_mem_nil, or_false] at hr
  · rcases hr with rfl | rfl | rfl | rfl | rfl
    · intro input txt rest h
      rw [matchLit_txt (show matchLit ['$', '{'] input = some (txt, rest) from h)]
      simp [WfToken]
    · intro input txt rest h
      rw [matchLit_txt (show matchLit ['\\', '$'] input = some (txt, rest) from h)]
      simp [WfToken]
    · intro input txt rest h
      simp [WfToken]
    · intro input txt rest h
      simp [WfToken]
    · intro input txt rest h
      simp [WfToken]
  · rcases hr with rfl | rfl | rfl
    · intro input txt rest h
      simp [WfToken]
    · intro input txt rest h
      rw [matchLit_txt (show matchLit [':'] input = some (txt, rest) from h)]
      simp [WfToken]
    · intro input txt rest h
      rw [matchLit_txt (show matchLit ['}'] input = some (txt, rest) from h)]
      simp [WfToken]

theorem runRules_wf (state : LexerState) {input rest : List Char}
    {tok : Token} {st : LexerState}
    (h : runRules (LexerStateRules state) input = some (tok, rest, st)) : WfToken tok := by
  have hall := lexerStateRules_wf state
  revert h
  generalize LexerStateRules state = rules at hall
  induction rules with
  | nil => intro h; cases h
  | cons r rs ih =>
    intro h
    unfold runRules at h
    cases hm : r.matchFn input with
    | none =>
      rw [hm] at h
      exact ih (fun m hmem => hall m (List.mem_cons_of_mem _ hmem)) h
    | some pr =>
      obtain ⟨txt, rest2⟩ := pr
      rw [hm] at h
      simp only [Option.some.injEq, Prod.mk.injEq] at h
      obtain ⟨h1, h2, h3⟩ := h
      rw [← h1]
      exact (hall r (List.mem_cons_self _ _)) input txt rest2 hm

/-- The lexer invariant: a successful lex yields width-well-formed tokens
whose source widths sum to the input length. -/
theorem lexLoop_inv (n : Nat) : ∀ (state : LexerState) (input : List Char)
    (toks : List Token), input.length ≤ n → lexLoop state input = some toks →
    (∀ t ∈ toks, WfToken t) ∧
    (toks.map fun t => t.text.length).sum = input.length := by
  induction n with
  | zero =>
    intro state input toks h heq
    have : input = [] := List.eq_nil_of_length_eq_zero (Nat.le_zero.mp h)
    subst this
    rw [lexLoop] at heq
    simp only [List.isEmpty_nil, if_true, Option.some.injEq] at heq
    subst heq
    simp
  | succ n ih =>
    intro state input toks h heq
    rw [lexLoop] at heq
    cases input with
    | nil =>
      simp only [List.isEmpty_nil, if_true, Option.some.injEq] at heq
      subst heq
      simp
    | cons c cs =>
      simp only [List.isEmpty_cons, Bool.false_eq_true, if_false] at heq
      split at heq
      · cases heq
      · rename_i tok rest newState hm
        obtain ⟨ts, hts, htoks⟩ := Option.map_eq_some'.mp heq
        subst htoks
        have hlt : rest.length < (c :: cs).length := runRules_progress state hm
        obtain ⟨hwf, hsum⟩ := ih newState rest ts (by simp at h hlt ⊢; omega) hts
        obtain ⟨hne, hsplit⟩ := runRules_sound (lexerStateRules_sound state) hm
        constructor
        · intro t ht
          rcases List.mem_cons.mp ht with rfl | ht2
          · exact runRules_wf state hm
          · exact hwf t ht2
        · simp only [List.map_cons, List.sum_cons, hsum, hsplit]
          simp [List.length_append]

/-- The text phase preserves total source width: the accumulated width plus
the widths of the remaining tokens equals the widths of all tokens. -/
theorem textRun_width (toks : List Token) (hwf : ∀ t ∈ toks, WfToken t) :
    (textRun toks).2.1 + ((textRun toks).2.2.map fun t => t.text.length).sum =
      (toks.map fun t => t.text.length).sum := by
  induction toks with
  | nil => simp [textRun]
  | cons hd tl ih =>
    have htl : ∀ t ∈ tl, WfToken t := fun t ht => hwf t (List.mem_cons_of_mem _ ht)
    obtain ⟨ty, tx⟩ := hd
    cases ty <;> simp only [textRun, List.map_cons, List.sum_cons]
    case STRING =>
      have := ih htl
      omega
    case ESCAPE_DOLLAR =>
      have h2 : tx.length = 2 :=
        (hwf { type := TokenType.ESCAPE_DOLLAR, text := tx } (List.mem_cons_self _ _)).2.1 rfl
      have := ih htl
      omega
    all_goals simp

/-- If the text phase accumulated no text it accumulated no width. -/
theorem textRun_empty_width (toks : List Token) (h : (textRun toks).1 = []) :
    (textRun toks).2.1 = 0 := by
  induction toks with
  | nil => simp [textRun]
  | cons hd tl ih =>
    obtain ⟨ty, tx⟩ := hd
    cases ty <;> simp only [textRun] at h ⊢
    case STRING =>
      obtain ⟨h1, h2⟩ := List.append_eq_nil.mp h
      simp [h1, ih h2]
    case ESCAPE_DOLLAR => cases h

/-- The bad-field phase preserves total source width. -/
theorem badRun_width (toks : List Token) :
    (badRun toks).1.length + ((badRun toks).2.map fun t => t.text.length).sum =
      (toks.map fun t => t.text.length).sum := by
  induction toks with
  | nil => simp [badRun]
  | cons t rest ih =>
    by_cases h : t.type == TokenType.STRING || t.type == TokenType.ESCAPE_DOLLAR
        || t.type == TokenType.EOF
    · simp [badRun, h]
    · simp only [badRun, h, Bool.false_eq_true, if_false, List.map_cons, List.sum_cons]
      simp only [List.length_append]
      omega

/-- The text phase preserves total source width at the segment level. -/
theorem processText_width (toks : List Token) (hwf : ∀ t ∈ toks, WfToken t) :
    (((_processTextStateTokens toks).1.map fun s => s.endColumn).sum) +
      (((_processTextStateTokens toks).2.map fun t => t.text.length).sum) =
      (toks.map fun t => t.text.length).sum := by
  unfold _processTextStateTokens
  by_cases he : (textRun toks).1.isEmpty
  · have h0 := textRun_empty_width toks (by simpa [List.isEmpty_iff] using he)
    have hw := textRun_width toks hwf
    simp [he]
    omega
  · have hw := textRun_width toks hwf
    simp [he]
    omega

/-- The field phase preserves total source width at the segment level. -/
theorem fieldState_width (toks : List Token) (hwf : ∀ t ∈ toks, WfToken t) :
    (((_processFieldStateTokens toks).1.map fun s => s.endColumn).sum) +
      (((_processFieldStateTokens toks).2.map fun t => t.text.length).sum) =
      (toks.map fun t => t.text.length).sum := by
  unfold _processFieldStateTokens
  by_cases he : _peekTokenType toks == TokenType.EOF
  · simp [he]
  · simp only [he, Bool.false_eq_true, if_false]
    by_cases hc : _checkFieldTokens toks
    · obtain ⟨t0, t1, t2, t3, t4, rest, rfl, hty0, hty1, hty2, hty3, hty4⟩ :=
        checkFieldTokens_shape toks hc
      have h0 : t0.text.length = 2 := (hwf t0 (by simp)).1 hty0
      have h2 : t2.text.length = 1 := (hwf t2 (by simp)).2.2.1 hty2
      have h4 : t4.text.length = 1 := (hwf t4 (by simp)).2.2.2.1 hty4
      simp only [hc, if_true, List.map_cons, List.sum_cons]
      simp
      omega
    · simp only [hc, Bool.false_eq_true, if_false]
      have hb := badRun_width toks
      simp only [_processBadField]
      simp
      omega

theorem textRun_rest_sublist (toks : List Token) : List.Sublist (textRun toks).2.2 toks := by
  induction toks with
  | nil => simp [textRun]
  | cons hd tl ih =>
    obtain ⟨ty, tx⟩ := hd
    cases ty <;> simp only [textRun] <;>
      first
        | exact List.Sublist.cons _ ih
        | exact List.Sublist.refl _

theorem badRun_rest_sublist (toks : List Token) : List.Sublist (badRun toks).2 toks := by
  induction toks with
  | nil => simp [badRun]
  | cons t rest ih =>
    by_cases h : t.type == TokenType.STRING || t.type == TokenType.ESCAPE_DOLLAR
        || t.type == TokenType.EOF
    · simp [badRun, h]
    · simp only [badRun, h, Bool.false_eq_true, if_false]
      exact List.Sublist.cons _ ih

theorem fieldState_rest_sublist (toks : List Token) :
    List.Sublist (_processFieldStateTokens toks).2 toks := by
  unfold _processFieldStateTokens
  by_cases he : _peekTokenType toks == TokenType.EOF
  · simp [he]
  · simp only [he, Bool.false_eq_true, if_false]
    by_cases hc : _checkFieldTokens toks
    · obtain ⟨t0, t1, t2, t3, t4, rest, rfl, -⟩ := checkFieldTokens_shape toks hc
      simp only [hc, if_true]
      refine List.Sublist.cons _ (List.Sublist.cons _ (List.Sublist.cons _
        (List.Sublist.cons _ (List.Sublist.cons _ (List.Sublist.refl _)))))
    · simp only [hc, Bool.false_eq_true, if_false]
      simpa [_processBadField] using badRun_rest_sublist toks

/-- With no EOF-typed token present, the EOF sentinel is only seen on the
empty token list. -/
theorem peek_eof_eq_nil (toks : List Token) (hwf : ∀ t ∈ toks, WfToken t)
    (h : _peekTokenType toks = TokenType.EOF) : toks = [] := by
  cases toks with
  | nil => rfl
  | cons t rest =>
    exact absurd (by simpa [_peekTokenType] using h) (hwf t (List.mem_cons_self _ _)).2.2.2.2

/-- The segment loop preserves total source width: before the column
fix-up, the segment widths (stored in `endColumn`) sum to the total token
source width. -/
theorem parseLoop_width (n : Nat) : ∀ toks : List Token, toks.length ≤ n →
    (∀ t ∈ toks, WfToken t) →
    ((_parseLoop toks).map fun s => s.endColumn).sum =
      (toks.map fun t => t.text.length).sum := by
  induction n with
  | zero =>
    intro toks h hwf
    have : toks = [] := List.eq_nil_of_length_eq_zero (Nat.le_zero.mp h)
    subst this
    simp [parseLoop_nil]
  | succ n ih =>
    intro toks h hwf
    by_cases he : _peekTokenType toks == TokenType.EOF
    · have hnil := peek_eof_eq_nil toks hwf (by simpa using he)
      subst hnil
      simp [parseLoop_nil]
    · rw [_parseLoop, dif_neg he]
      have htl : List.Sublist (_processTextStateTokens toks).2 toks := textRun_rest_sublist toks
      have hfl : List.Sublist (_processFieldStateTokens (_processTextStateTokens toks).2).2
          (_processTextStateTokens toks).2 := fieldState_rest_sublist _
      have hwf2 : ∀ t ∈ (_processTextStateTokens toks).2, WfToken t :=
        fun t ht => hwf t (htl.subset ht)
      have hwf3 : ∀ t ∈ (_processFieldStateTokens (_processTextStateTokens toks).2).2,
          WfToken t := fun t ht => hwf2 t (hfl.subset ht)
      have hprog := parse_progress toks (by simpa using he)
      have hrec := ih _ (by omega) hwf3
      have hfw := fieldState_width (_processTextStateTokens toks).2 hwf2
      have htw := processText_width toks hwf
      simp only [List.map_append, List.sum_append, hrec]
      omega

/-- Segments are contiguous from offset `i`: each segment starts where the
previous one ended (no gaps, no overlaps, source order), with
`startColumn ≤ endColumn`. -/
def chainFrom (i : Nat) : List Segment → Prop
  | [] => True
  | s :: rest => s.startColumn = i ∧ i ≤ s.endColumn ∧ chainFrom s.endColumn rest

/-- The final covered offset of a contiguous segment list starting at `i`. -/
def segsEnd (i : Nat) : List Segment → Nat
  | [] => i
  | s :: rest => segsEnd s.endColumn rest

theorem fixColumns_chain (segs : List Segment) : ∀ i : Nat, chainFrom i (fixColumns i segs) := by
  induction segs with
  | nil => intro i; simp [fixColumns, chainFrom]
  | cons s rest ih =>
    intro i
    rw [fixColumns]
    exact ⟨rfl, Nat.le_add_right _ _, ih _⟩

theorem fixColumns_end (segs : List Segment) : ∀ i : Nat,
    segsEnd i (fixColumns i segs) = i + (segs.map fun s => s.endColumn).sum := by
  induction segs with
  | nil => intro i; simp [fixColumns, segsEnd]
  | cons s rest ih =>
    intro i
    simp only [fixColumns, segsEnd, List.map_cons, List.sum_cons]
    rw [ih]
    omega

theorem fixColumns_widths (segs : List Segment) : ∀ i : Nat,
    ((fixColumns i segs).map fun s => s.endColumn - s.startColumn).sum =
      (segs.map fun s => s.endColumn).sum := by
  induction segs with
  | nil => intro i; simp [fixColumns]
  | cons s rest ih =>
    intro i
    simp only [fixColumns, List.map_cons, List.sum_cons]
    rw [ih]
    omega

/-- C1: for every template accepted by `setTemplateString`, the parsed
segments partition the template's character range: the column ranges are
contiguous from 0 in source order with no gaps or overlaps, the final
endColumn is the template's length, and the widths
`endColumn - startColumn` sum to the template's length. -/
theorem claim_C1_segments_partition (template : List Char) (segs : List Segment)
    (h : _parse template = some segs) :
    chainFrom 0 segs ∧ segsEnd 0 segs = template.length ∧
    (segs.map fun s => s.endColumn - s.startColumn).sum = template.length := by
  unfold _parse at h
  obtain ⟨toks, hlex, hsegs⟩ := Option.map_eq_some'.mp h
  obtain ⟨hwf, hsum⟩ := lexLoop_inv template.length LexerState.NORMAL template toks le_rfl hlex
  subst hsegs
  have hw := parseLoop_width toks.length toks le_rfl hwf
  refine ⟨fixColumns_chain _ _, ?_, ?_⟩
  · rw [fixColumns_end, hw, hsum]
    omega
  · rw [fixColumns_widths, hw, hsum]

/-- Witness for C1 at the template `"ab"`. -/
theorem claim_C1_witness :
    (_parse "ab".toList =
      some [{ type := SegmentType.text, text := "ab".toList, startColumn := 0,
              endColumn := 2 }]) ∧
    (chainFrom 0 [{ type := SegmentType.text, text := "ab".toList, startColumn := 0,
                    endColumn := 2 }] ∧
     segsEnd 0 [{ type := SegmentType.text, text := "ab".toList, startColumn := 0,
                  endColumn := 2 }] = "ab".toList.length ∧
     (([{ type := SegmentType.text, text := "ab".toList, startColumn := 0,
          endColumn := 2 }] : List Segment).map fun s => s.endColumn - s.startColumn).sum =
       "ab".toList.length) := by
  have h : _parse "ab".toList =
      some [{ type := SegmentType.text, text := "ab".toList, startColumn := 0,
              endColumn := 2 }] := by
    simpa using parse_allNormal "ab".toList (by decide) (by decide)
  exact ⟨h, claim_C1_segments_partition "ab".toList _ h⟩

/-- `Map.get` finds the value stored by `Map.set` under the same key. -/
theorem mapGet_mapSet (m : List (List Char × FieldFormatter)) (k : List Char)
    (v : FieldFormatter) : mapGet (mapSet m k v) k = some v := by
  induction m with
  | nil => simp [mapSet, mapGet]
  | cons kv rest ih =>
    obtain ⟨k0, v0⟩ := kv
    by_cases h : k0 = k
    · simp [mapSet, mapGet, h]
    · simp [mapSet, mapGet, h, ih]

/-- C7: a Field segment whose (lower-cased) namespace has no registered
formatter contributes the empty string to the plain render but a visible
`Unknown '<namespace>'` marker to the diagnostic render; an Error segment
likewise renders empty in plain mode and as `Unknown '<raw text>'` in
diagnostic mode; and on a parsed template both renders return a result
(neither aborts), the diagnostic one containing the marker. -/
theorem claim_C7_unknown_renders :
    (∀ (fmap : List (List Char × FieldFormatter)) (seg : Segment),
      seg.type = SegmentType.field →
      mapGet fmap (seg.«namespace».map Char.toLower) = none →
      formatHtmlSegment fmap seg = [] ∧
      List.IsInfix ("Unknown '".toList ++ seg.«namespace»)
        (formatDiagnosticHtmlSegment fmap seg)) ∧
    (∀ (fmap : List (List Char × FieldFormatter)) (seg : Segment),
      seg.type = SegmentType.error →
      formatHtmlSegment fmap seg = [] ∧
      List.IsInfix ("Unknown '".toList ++ seg.text)
        (formatDiagnosticHtmlSegment fmap seg)) ∧
    (∀ (t : TemplateString) (segs : List Segment) (seg : Segment),
      t._segments = some segs → seg ∈ segs → seg.type = SegmentType.field →
      mapGet t._formatterMap (seg.«namespace».map Char.toLower) = none →
      ∃ pout, t.formatHtml = some pout ∧
      ∃ out, t.formatDiagnosticHtml = some out ∧
        List.IsInfix ("Unknown '".toList ++ seg.«namespace») out) := by
  have hfield : ∀ (fmap : List (List Char × FieldFormatter)) (seg : Segment),
      seg.type = SegmentType.field →
      mapGet fmap (seg.«namespace».map Char.toLower) = none →
      formatHtmlSegment fmap seg = [] ∧
      formatDiagnosticHtmlSegment fmap seg =
        "<span class=\"segment_error\">Unknown '".toList ++ seg.«namespace» ++
          "'</span>".toList := by
    intro fmap seg hty hmap
    constructor
    · simp [formatHtmlSegment, hty, hmap]
    · simp [formatDiagnosticHtmlSegment, hty, hmap]
  refine ⟨?_, ?_, ?_⟩
  · intro fmap seg hty hmap
    obtain ⟨h1, h2⟩ := hfield fmap seg hty hmap
    refine ⟨h1, ?_⟩
    rw [h2]
    exact ⟨"<span class=\"segment_error\">".toList, "'</span>".toList, by simp⟩
  · intro fmap seg hty
    constructor
    · simp [formatHtmlSegment, hty]
    · rw [show formatDiagnosticHtmlSegment fmap seg =
          "<span class=\"segment_error\">Unknown '".toList ++ seg.text ++
            "'</span>".toList from by simp [formatDiagnosticHtmlSegment, hty]]
      exact ⟨"<span class=\"segment_error\">".toList, "'</span>".toList, by simp⟩
  · intro t segs seg hsegs hmem hty hmap
    refine ⟨(segs.map (formatHtmlSegment t._formatterMap)).join, ?_, ?_⟩
    · simp [TemplateString.formatHtml, hsegs]
    refine ⟨(segs.map (formatDiagnosticHtmlSegment t._formatterMap)).join, ?_, ?_⟩
    · simp [TemplateString.formatDiagnosticHtml, hsegs]
    obtain ⟨h1, h2⟩ := hfield t._formatterMap seg hty hmap
    have hmem2 : formatDiagnosticHtmlSegment t._formatterMap seg ∈
        segs.map (formatDiagnosticHtmlSegment t._formatterMap) :=
      List.mem_map_of_mem _ hmem
    have hinf1 : List.IsInfix ("Unknown '".toList ++ seg.«namespace»)
        (formatDiagnosticHtmlSegment t._formatterMap seg) := by
      rw [h2]
      exact ⟨"<span class=\"segment_error\">".toList, "'</span>".toList, by simp⟩
    exact hinf1.trans (List.infix_of_mem_join hmem2)

/-- A Field segment with an unregistered namespace, an Error segment, and
a template object holding the field segment, used as concrete render
inputs. -/
def demoFieldSeg : Segment :=
  { type := SegmentType.field, «namespace» := ['x'], key := ['k'],
    startColumn := 0, endColumn := 6 }

def demoErrorSeg : Segment :=
  { type := SegmentType.error, text := ['$', '{'], startColumn := 0, endColumn := 2 }

def demoTemplate : TemplateString :=
  { _template := none, _segments := some [demoFieldSeg], _formatterMap := [] }

/-- Witness for C7 at a Field segment with namespace `"x"` over the empty
formatter map, an Error segment with raw text `"${"`, and the template
object holding the field segment. -/
theorem claim_C7_witness :
    (formatHtmlSegment [] demoFieldSeg = [] ∧
      List.IsInfix ("Unknown '".toList ++ demoFieldSeg.«namespace»)
        (formatDiagnosticHtmlSegment [] demoFieldSeg)) ∧
    (formatHtmlSegment [] demoErrorSeg = [] ∧
      List.IsInfix ("Unknown '".toList ++ demoErrorSeg.text)
        (formatDiagnosticHtmlSegment [] demoErrorSeg)) ∧
    (∃ pout, demoTemplate.formatHtml = some pout ∧
      ∃ out, demoTemplate.formatDiagnosticHtml = some out ∧
        List.IsInfix ("Unknown '".toList ++ demoFieldSeg.«namespace») out) :=
  ⟨claim_C7_unknown_renders.1 [] demoFieldSeg rfl rfl,
    claim_C7_unknown_renders.2.1 [] demoErrorSeg rfl,
    claim_C7_unknown_renders.2.2 demoTemplate [demoFieldSeg] demoFieldSeg rfl
      (by simp) rfl rfl⟩

/-- C8: formatter resolution is case-insensitive on the namespace only:
registration stores under the lower-cased namespace so that lookup by the
lower-cased field namespace finds the formatter, and after
`addFormatter("Foo", f)` a render of `${foo:bar}` resolves to `f` and
produces exactly `f.formatHtml("bar")` — the key passed through verbatim,
one invocation for the one occurrence. -/
theorem claim_C8_case_insensitive_resolution :
    (∀ (t : TemplateString) (ns : List Char) (f : FieldFormatter),
      mapGet ((t.addFormatter ns f)._formatterMap) (ns.map Char.toLower) = some f) ∧
    (∀ f : FieldFormatter,
      ∃ t, (({ } : TemplateString).addFormatter "Foo".toList f).setTemplateString
          "${foo:bar}".toList = some t ∧
        t.formatHtml = some (f.formatHtml "bar".toList)) := by
  constructor
  · intro t ns f
    simp only [TemplateString.addFormatter]
    exact mapGet_mapSet _ _ _
  · intro f
    have hparse : _parse "${foo:bar}".toList =
        some [{ type := SegmentType.field, «namespace» := "foo".toList,
                key := "bar".toList, startColumn := 0, endColumn := 10 }] := by
      simpa using parse_completeField "foo".toList "bar".toList (by decide) (by decide)
        (by decide) (by decide)
    have hlow : List.map Char.toLower "Foo".toList = "foo".toList := by decide
    have hlow2 : List.map Char.toLower "foo".toList = "foo".toList := by decide
    refine ⟨{ _template := some "${foo:bar}".toList,
              _segments := some [{ type := SegmentType.field, «namespace» := "foo".toList,
                                   key := "bar".toList, startColumn := 0, endColumn := 10 }],
              _formatterMap := mapSet [] (List.map Char.toLower "Foo".toList) f }, ?_, ?_⟩
    · unfold TemplateString.setTemplateString TemplateString.addFormatter
      rw [hparse]
      rfl
    · simp only [TemplateString.formatHtml, Option.map_some']
      simp only [formatHtmlSegment, hlow, hlow2, List.map_cons, List.map_nil]
      rw [mapGet_mapSet]
      simp

/-- C10: the plain render never consults `getErrorMessage`: for a Field
segment with a registered formatter it returns `formatter.formatHtml(key)`
unconditionally (even when `getErrorMessage(key)` reports an error), while
the diagnostic render substitutes the non-null error message for the
field's value and uses `formatHtml` only when `getErrorMessage` is null. -/
theorem claim_C10_plain_ignores_error_message :
    ∀ (fmap : List (List Char × FieldFormatter)) (seg : Segment) (fm : FieldFormatter),
      seg.type = SegmentType.field →
      mapGet fmap (seg.«namespace».map Char.toLower) = some fm →
      formatHtmlSegment fmap seg = fm.formatHtml seg.key ∧
      (∀ msg, fm.getErrorMessage seg.key = some msg →
        formatDiagnosticHtmlSegment fmap seg =
          "<span class=\"segment_error\">".toList ++ msg ++ "</span>".toList) ∧
      (fm.getErrorMessage seg.key = none →
        formatDiagnosticHtmlSegment fmap seg =
          "<span class=\"segment_field\">".toList ++ fm.formatHtml seg.key ++
            "</span>".toList) := by
  intro fmap seg fm hty hmap
  refine ⟨?_, ?_, ?_⟩
  · simp [formatHtmlSegment, hty, hmap]
  · intro msg hmsg
    simp [formatDiagnosticHtmlSegment, hty, hmap, hmsg]
  · intro hnone
    simp [formatDiagnosticHtmlSegment, hty, hmap, hnone]

/-- A formatter whose `getErrorMessage` always reports an error, and a
field segment resolving to it, used as concrete render inputs. -/
def demoErrFormatter : FieldFormatter :=
  { formatHtml := fun _ => ['V'], getErrorMessage := fun _ => some ['E'] }

def demoC10Seg : Segment :=
  { type := SegmentType.field, «namespace» := ['n'], key := ['k'],
    startColumn := 0, endColumn := 6 }

/-- Witness for C10 at a one-entry formatter map whose formatter reports
an error for every key. -/
theorem claim_C10_witness :
    formatHtmlSegment [(['n'], demoErrFormatter)] demoC10Seg =
      demoErrFormatter.formatHtml demoC10Seg.key ∧
    (∀ msg, demoErrFormatter.getErrorMessage demoC10Seg.key = some msg →
      formatDiagnosticHtmlSegment [(['n'], demoErrFormatter)] demoC10Seg =
        "<span class=\"segment_error\">".toList ++ msg ++ "</span>".toList) ∧
    (demoErrFormatter.getErrorMessage demoC10Seg.key = none →
      formatDiagnosticHtmlSegment [(['n'], demoErrFormatter)] demoC10Seg =
        "<span class=\"segment_field\">".toList ++
          demoErrFormatter.formatHtml demoC10Seg.key ++ "</span>".toList) :=
  claim_C10_plain_ignores_error_message [(['n'], demoErrFormatter)] demoC10Seg
    demoErrFormatter rfl (by simp [demoC10Seg, mapGet])

/-- A template made of ordinary-character runs separated by the `\$`
escape: `escTemplate [p1, …, pk] = p1 ++ "\$" ++ p2 ++ … ++ "\$" ++ pk`. -/
def escTemplate : List (List Char) → List Char
  | [] => []
  | [p] => p
  | p :: rest => p ++ '\\' :: '$' :: escTemplate rest

/-- The decoded text of such a template: each `\$` becomes a single `$`. -/
def escDecoded : List (List Char) → List Char
  | [] => []
  | [p] => p
  | p :: rest => p ++ '$' :: escDecoded rest

/-- The token sequence the lexer produces on such a template. -/
def escTokens : List (List Char) → List Token
  | [] => []
  | [p] => if p.isEmpty then [] else [{ type := TokenType.STRING, text := p }]
  | p :: rest =>
    (if p.isEmpty then [] else [{ type := TokenType.STRING, text := p }]) ++
      { type := TokenType.ESCAPE_DOLLAR, text := ['\\', '$'] } :: escTokens rest

theorem lex_escTemplate : ∀ parts : List (List Char),
    (∀ p ∈ parts, ∀ c ∈ p, isNormalChar c = true) →
    lexLoop LexerState.NORMAL (escTemplate parts) = some (escTokens parts) := by
  intro parts
  induction parts with
  | nil => intro h; simp [escTemplate, escTokens, lexLoop_nil]
  | cons p rest ih =>
    intro h
    cases rest with
    | nil =>
      cases p with
      | nil => simp [escTemplate, escTokens, lexLoop_nil]
      | cons c p' =>
        rw [show escTemplate [c :: p'] = c :: p' from rfl]
        rw [lexLoop_allNormal_cons c p' (h (c :: p') (List.mem_singleton.mpr rfl))]
        simp [escTokens]
    | cons r rs =>
      have hT := ih (fun q hq => h q (List.mem_cons_of_mem _ hq))
      cases p with
      | nil =>
        rw [show escTemplate ([] :: r :: rs) = '\\' :: '$' :: escTemplate (r :: rs) from rfl]
        rw [lexLoop_cons_eq (by simp) (runRules_normal_escape _), hT]
        simp [escTokens]
      | cons c p' =>
        have hp : ∀ x ∈ c :: p', isNormalChar x = true := h (c :: p') (List.mem_cons_self _ _)
        have hsplit := takeWhile_append_stop (p := isNormalChar) '\\'
          ('$' :: escTemplate (r :: rs)) (fun x hx => hp x (List.mem_cons_of_mem _ hx))
          (by decide)
        rw [show escTemplate ((c :: p') :: r :: rs) =
            c :: (p' ++ ('\\' :: '$' :: escTemplate (r :: rs))) from rfl]
        rw [lexLoop_cons_eq (by simp) (runRules_normal_run _ (hp c (List.mem_cons_self _ _)))]
        rw [hsplit.1, hsplit.2]
        rw [lexLoop_cons_eq (by simp) (runRules_normal_escape _), hT]
        simp [escTokens]

theorem escTokens_textRun : ∀ parts : List (List Char),
    textRun (escTokens parts) = (escDecoded parts, (escTemplate parts).length, []) := by
  intro parts
  induction parts with
  | nil => simp [escTokens, escDecoded, escTemplate, textRun]
  | cons p rest ih =>
    cases rest with
    | nil =>
      cases p with
      | nil => simp [escTokens, escDecoded, escTemplate, textRun]
      | cons c p' => simp [escTokens, escDecoded, escTemplate, textRun]
    | cons r rs =>
      cases p with
      | nil =>
        simp only [escTokens, escDecoded, escTemplate, List.isEmpty_nil, if_true,
          List.nil_append, textRun, ih]
        simp
        omega
      | cons c p' =>
        simp only [escTokens, escDecoded, escTemplate, List.isEmpty_cons,
          Bool.false_eq_true, if_false, List.cons_append, List.nil_append, textRun, ih]
        simp [List.length_append]
        omega

theorem escTokens_head (parts : List (List Char)) (h2 : 2 ≤ parts.length) :
    _peekTokenType (escTokens parts) ≠ TokenType.EOF := by
  match parts, h2 with
  | p :: r :: rs, _ =>
    cases p with
    | nil => simp [escTokens, _peekTokenType]
    | cons c p' => simp [escTokens, _peekTokenType]

theorem escDecoded_ne_nil (parts : List (List Char)) (h2 : 2 ≤ parts.length) :
    escDecoded parts ≠ [] := by
  match parts, h2 with
  | p :: r :: rs, _ => simp [escDecoded]

theorem escTemplate_length : ∀ parts : List (List Char), parts ≠ [] →
    (escTemplate parts).length = (escDecoded parts).length + (parts.length - 1) := by
  intro parts
  induction parts with
  | nil => intro h; exact absurd rfl h
  | cons p rest ih =>
    intro h
    cases rest with
    | nil => simp [escTemplate, escDecoded]
    | cons r rs =>
      have := ih (by simp)
      simp only [escTemplate, escDecoded, List.length_append, List.length_cons] at this ⊢
      omega

/-- C9: in an all-text template `p1\$p2\$…\$pk` (each `pi` free of `$` and
`\`, at least one escape), every `\$` occurrence decodes to a single
literal `$` in the single Text segment's text, and the segment's column
span exceeds the decoded text's length by exactly one per occurrence
(each escape contributes width 2 for one decoded character). -/
theorem claim_C9_escape_decoding (parts : List (List Char)) (h2 : 2 ≤ parts.length)
    (hn : ∀ p ∈ parts, ∀ c ∈ p, c ≠ '$' ∧ c ≠ '\\') :
    _parse (escTemplate parts) =
      some [{ type := SegmentType.text, text := escDecoded parts, startColumn := 0,
              endColumn := (escTemplate parts).length }] ∧
    (escTemplate parts).length = (escDecoded parts).length + (parts.length - 1) := by
  have hn' : ∀ p ∈ parts, ∀ c ∈ p, isNormalChar c = true := by
    intro p hp c hc
    simp [isNormalChar, (hn p hp c hc).1, (hn p hp c hc).2]
  constructor
  · unfold _parse lex
    rw [lex_escTemplate parts hn']
    simp only [Option.map_some']
    rw [_parseLoop, dif_neg (by simpa using escTokens_head parts h2)]
    have htext : _processTextStateTokens (escTokens parts) =
        ([{ type := SegmentType.text, text := escDecoded parts, startColumn := 0,
            endColumn := (escTemplate parts).length }], []) := by
      unfold _processTextStateTokens
      rw [escTokens_textRun parts]
      simp [List.isEmpty_iff, escDecoded_ne_nil parts h2]
    rw [htext]
    simp [_processFieldStateTokens, _peekTokenType, parseLoop_nil, fixColumns]
  · exact escTemplate_length parts (by intro h; subst h; simp at h2)

/-- Witness for C9 at `parts = ["a", "b"]` (the template `"a\$b"`). -/
theorem claim_C9_witness :
    (2 ≤ (["a".toList, "b".toList] : List (List Char)).length ∧
      (∀ p ∈ (["a".toList, "b".toList] : List (List Char)), ∀ c ∈ p,
        c ≠ '$' ∧ c ≠ '\\')) ∧
    (_parse (escTemplate ["a".toList, "b".toList]) =
      some [{ type := SegmentType.text, text := escDecoded ["a".toList, "b".toList],
              startColumn := 0,
              endColumn := (escTemplate ["a".toList, "b".toList]).length }] ∧
     (escTemplate ["a".toList, "b".toList]).length =
       (escDecoded ["a".toList, "b".toList]).length +
         ((["a".toList, "b".toList] : List (List Char)).length - 1)) :=
  ⟨⟨by decide, by decide⟩,
    claim_C9_escape_decoding ["a".toList, "b".toList] (by decide) (by decide)⟩
